import Mathlib

/-!
Shallow embedding of the trading-strategy core of the `binance` repository
(rust sources under `src/`): the decimal `Range` type, the limit-order
position engine (`LimitPosition`, `Limit::trap`), the grid partitioner
(`Bound`, `BoundPosition`, `Grid`), the percentage strategy and the
spot commission calculator.  Decimal values are embedded as rationals,
with explicit truncation (`trunc_with_scale`) and banker's rounding
(`round_dp`) where the source applies them.
-/

namespace Binance

/-- Truncation of a rational toward zero to an integer. -/
def ratTrunc (y : ℚ) : ℤ :=
  if y < 0 then -⌊-y⌋ else ⌊y⌋

/-- Truncation toward zero to `p` decimal places: embeds
`rust_decimal::Decimal::trunc_with_scale`. -/
def truncScale (p : ℕ) (x : ℚ) : ℚ :=
  (ratTrunc (x * 10 ^ p) : ℚ) / 10 ^ p

/-- Round a rational to the nearest integer, ties to even: the integer core
of `rust_decimal`'s default `RoundingStrategy::MidpointNearestEven`. -/
def roundTE (y : ℚ) : ℤ :=
  if y - ⌊y⌋ < 1 / 2 then ⌊y⌋
  else if 1 / 2 < y - ⌊y⌋ then ⌊y⌋ + 1
  else if ⌊y⌋ % 2 = 0 then ⌊y⌋ else ⌊y⌋ + 1

/-- Banker's rounding to `p` decimal places: embeds
`rust_decimal::Decimal::round_dp` (default midpoint-nearest-even strategy). -/
def roundDp (p : ℕ) (x : ℚ) : ℚ :=
  (roundTE (x * 10 ^ p) : ℚ) / 10 ^ p

/-! ## `strategy/mod.rs`: `Range`, `Order`, `PriceSignal`, `PositionSide` -/

/-- `Range(pub Decimal, pub Decimal)` from `src/strategy/mod.rs`. -/
structure Range where
  fst : ℚ
  snd : ℚ
deriving DecidableEq

/-- `Range::high`: the larger stored endpoint. -/
def Range.high (r : Range) : ℚ :=
  if r.fst > r.snd then r.fst else r.snd

/-- `Range::low`: the smaller stored endpoint. -/
def Range.low (r : Range) : ℚ :=
  if r.fst < r.snd then r.fst else r.snd

/-- `Range::is_within_inclusive`. -/
def Range.is_within_inclusive (r : Range) (value : ℚ) : Bool :=
  decide (r.low ≤ value) && decide (value ≤ r.high)

/-- `Range::is_within_exclusive`. -/
def Range.is_within_exclusive (r : Range) (value : ℚ) : Bool :=
  decide (r.low < value) && decide (value < r.high)

/-- `Range::length`. -/
def Range.length (r : Range) : ℚ :=
  r.high - r.low

/-- `Order` from `src/strategy/mod.rs` (immutable trade record). -/
structure Order where
  price : ℚ
  amount : ℚ
  quantity : ℚ
  timestamp : ℤ
deriving DecidableEq

/-- `PriceSignal` from `src/strategy/mod.rs`: a price with capture time. -/
structure PriceSignal where
  value : ℚ
  timestamp : ℤ
deriving DecidableEq

/-- `PositionSide` from `src/strategy/mod.rs`: a completed buy (`Increase`)
or a completed sell (`Decrease`). -/
inductive PositionSide where
  | Increase (order : Order)
  | Decrease (order : Order)
deriving DecidableEq

/-! ## `strategy/limit.rs`: `LimitPosition` and `Limit::trap`

The `Mutex<Position>` of the source guards `held` on the single
sequential path modelled here, so the state is embedded directly;
`trap`'s two injected exchange closures are embedded as functions
returning `Except Unit` (`.error` = the upstream call failed), and the
price closure as a fetch-counting stream so that the number of price
fetches per tick is observable. -/

/-- `type Position = Option<Quantity>` (`none` = flat). -/
abbrev LimitPos := Option ℚ

/-- `LimitPosition` from `src/strategy/limit.rs`. -/
structure LimitPosition where
  buying : Range
  selling : Range
  investment : ℚ
  position : LimitPos
  buying_count : ℕ
  selling_count : ℕ
deriving DecidableEq

/-- `LimitPosition::new`. -/
def LimitPosition.new (investment : ℚ) (buying selling : Range)
    (position : LimitPos) : LimitPosition :=
  ⟨buying, selling, investment, position, 0, 0⟩

/-- `LimitPosition::predictive_buying`. -/
def LimitPosition.predictive_buying (lp : LimitPosition) (price : ℚ) :
    Option ℚ :=
  if lp.buying.is_within_inclusive price then
    match lp.position with
    | some pos => if pos = 0 then some lp.investment else none
    | none => some lp.investment
  else
    none

/-- `LimitPosition::predictive_selling`. -/
def LimitPosition.predictive_selling (lp : LimitPosition) (price : ℚ) :
    Option ℚ :=
  if lp.selling.is_within_inclusive price then
    match lp.position with
    | some quantity => if quantity = 0 then none else some quantity
    | none => none
  else
    none

/-- `LimitPosition::update_position`. -/
def LimitPosition.update_position (lp : LimitPosition) (p : LimitPos) :
    LimitPosition :=
  { lp with position := p }

/-- `Limit` from `src/strategy/limit.rs`: the collection of positions. -/
structure Limit where
  positions : List LimitPosition
deriving DecidableEq

/-- An invocation of an injected exchange operation during one tick. -/
inductive TrapEvent where
  | sellCall (price quantity : ℚ)
  | buyCall (price amount : ℚ)
deriving DecidableEq

/-- The price argument an exchange invocation was made with. -/
def TrapEvent.price : TrapEvent → ℚ
  | .sellCall p _ => p
  | .buyCall p _ => p

/-- True for a buy invocation. -/
def TrapEvent.isBuy : TrapEvent → Bool
  | .sellCall _ _ => false
  | .buyCall _ _ => true

/-- Result of processing one `LimitPosition` in the `trap` loop body:
the (possibly updated) position, the exchange invocation made for it, if
any, and whether that invocation failed. -/
structure StepResult where
  pos : LimitPosition
  event : Option TrapEvent
  err : Bool
deriving DecidableEq

/-- One iteration of the `for limit_position in self.positions` loop of
`Limit::trap`: sell condition first, then buy condition; on a successful
exchange call the holding and counter are updated, on a failed call the
position is left as it was. -/
def stepPosition (buyF sellF : ℚ → ℚ → Except Unit ℚ) (price : ℚ)
    (lp : LimitPosition) : StepResult :=
  match lp.predictive_selling price with
  | some quantity =>
    match sellF price quantity with
    | .error _ => ⟨lp, some (.sellCall price quantity), true⟩
    | .ok _ =>
      ⟨{ lp.update_position none with selling_count := lp.selling_count + 1 },
        some (.sellCall price quantity), false⟩
  | none =>
    match lp.predictive_buying price with
    | some amount =>
      match buyF price amount with
      | .error _ => ⟨lp, some (.buyCall price amount), true⟩
      | .ok quantity =>
        ⟨{ lp.update_position (some quantity) with
            buying_count := lp.buying_count + 1 },
          some (.buyCall price amount), false⟩
    | none => ⟨lp, none, false⟩

/-- Outcome of one `trap` tick: the positions after the tick (updated
prefix, untouched remainder on failure), the exchange invocations made,
in order, and whether the tick aborted with an error. -/
structure TrapResult where
  positions : List LimitPosition
  events : List TrapEvent
  err : Bool
deriving DecidableEq

/-- The position loop of `Limit::trap` over an already fetched price:
positions are visited sequentially in declaration order; the first failed
exchange call aborts the loop, leaving the remaining positions
unevaluated. -/
def trapGo (buyF sellF : ℚ → ℚ → Except Unit ℚ) (price : ℚ) :
    List LimitPosition → TrapResult
  | [] => ⟨[], [], false⟩
  | lp :: rest =>
    let s := stepPosition buyF sellF price lp
    if s.err then
      ⟨s.pos :: rest, s.event.toList, true⟩
    else
      let r := trapGo buyF sellF price rest
      ⟨s.pos :: r.positions, s.event.toList ++ r.events, r.err⟩

/-- `Limit::trap` given the outcome of the single price fetch: a failed
fetch aborts the tick before any position is evaluated. -/
def trapWithPrice (priceRes : Except Unit ℚ)
    (buyF sellF : ℚ → ℚ → Except Unit ℚ) (l : List LimitPosition) :
    TrapResult :=
  match priceRes with
  | .error _ => ⟨l, [], true⟩
  | .ok price => trapGo buyF sellF price l

/-- The injected price closure, embedded as a stream of fetch results
together with the number of fetches made so far. -/
structure PriceSource where
  seq : ℕ → Except Unit ℚ
  fetches : ℕ

/-- `Limit::trap`: fetch the current price (advancing the source), then
run the position loop. -/
def trap (ps : PriceSource) (buyF sellF : ℚ → ℚ → Except Unit ℚ)
    (l : List LimitPosition) : PriceSource × TrapResult :=
  (⟨ps.seq, ps.fetches + 1⟩, trapWithPrice (ps.seq ps.fetches) buyF sellF l)

/-- The decision `trap` takes for one position at a given price: the sell
condition is evaluated first, then the buy condition, so at most one
exchange operation is invoked per position per tick. -/
def tickDecision (price : ℚ) (lp : LimitPosition) : Option TrapEvent :=
  match lp.predictive_selling price with
  | some quantity => some (.sellCall price quantity)
  | none =>
    match lp.predictive_buying price with
    | some amount => some (.buyCall price amount)
    | none => none

/-- The injected operations of one tick, for iterating `trap`. -/
structure TickInput where
  priceRes : Except Unit ℚ
  buyF : ℚ → ℚ → Except Unit ℚ
  sellF : ℚ → ℚ → Except Unit ℚ

/-- The positions after one tick. -/
def tickStep (l : List LimitPosition) (t : TickInput) : List LimitPosition :=
  (trapWithPrice t.priceRes t.buyF t.sellF l).positions

/-- The positions after a sequence of ticks. -/
def runTicks (init : List LimitPosition) (ticks : List TickInput) :
    List LimitPosition :=
  ticks.foldl tickStep init

/-! ## `strategy/grid.rs`: `Bound`, `BoundPosition`, `Grid` -/

/-- `Bound(pub Decimal, pub Decimal)` from `src/strategy/grid.rs`. -/
structure Bound where
  fst : ℚ
  snd : ℚ
deriving DecidableEq, Inhabited

/-- `Bound::is_within`: strictly between the two stored values, in
stored order. -/
def Bound.is_within (b : Bound) (value : ℚ) : Bool :=
  decide (b.fst < value) && decide (value < b.snd)

/-- `Bound::high`. -/
def Bound.high (b : Bound) : ℚ :=
  if b.fst > b.snd then b.fst else b.snd

/-- `Bound::low`. -/
def Bound.low (b : Bound) : ℚ :=
  if b.fst < b.snd then b.fst else b.snd

/-- `Position` from `src/strategy/mod.rs`: a grid slot's holding. -/
inductive GridPosition where
  | Stock (order : Order)
  | None
deriving DecidableEq, Inhabited

/-- `BoundPosition` from `src/strategy/grid.rs`. -/
structure BoundPosition where
  buying : Bound
  selling : Bound
  position : GridPosition
deriving DecidableEq, Inhabited

/-- `BoundPosition::with_copies`: `copies - 1` overlapping positions over
the bound, with interval `(high - low) / copies` truncated to six decimal
places. -/
def BoundPosition.with_copies (bound : Bound) (copies : ℕ) :
    List BoundPosition :=
  let interval := truncScale 6 ((bound.high - bound.low) / copies)
  (List.range (copies - 1)).map fun i : ℕ =>
    let buying := bound.low + interval * (i : ℚ)
    let selling := bound.low + interval * ((i : ℚ) + 2)
    ⟨⟨buying, buying + interval / 2⟩, ⟨selling - interval / 2, selling⟩,
      GridPosition.None⟩

/-- `GridOptions` from `src/strategy/grid.rs`: the optional stop-loss is a
fractional drop below the grid's low bound. -/
structure GridOptions where
  stop_loss : Option ℚ
deriving DecidableEq

/-- `Grid` from `src/strategy/grid.rs`. -/
structure Grid where
  bound : Bound
  investment : ℚ
  positions : List BoundPosition
  options : GridOptions
deriving DecidableEq

/-- `Grid::new`. -/
def Grid.new (investment : ℚ) (bound : ℚ × ℚ) (copies : ℕ)
    (options : Option GridOptions) : Grid :=
  ⟨⟨bound.1, bound.2⟩, investment,
    BoundPosition.with_copies ⟨bound.1, bound.2⟩ copies,
    options.getD ⟨none⟩⟩

/-- `Grid::find_buying_bound_position`, returning the index of the first
position whose buying bound strictly contains the price. -/
def Grid.find_buying_bound_position (g : Grid) (price : ℚ) : Option ℕ :=
  g.positions.findIdx? fun e => e.buying.is_within price

/-- `Grid::find_selling_bound_position`. -/
def Grid.find_selling_bound_position (g : Grid) (price : ℚ) : Option ℕ :=
  g.positions.findIdx? fun e => e.selling.is_within price

/-- `Grid::is_reach_stop_loss`: true iff a stop-loss fraction is
configured and the price is at or below `low * (1 - stop)`. -/
def Grid.is_reach_stop_loss (g : Grid) (price : ℚ) : Bool :=
  match g.options.stop_loss with
  | some stop => decide (price ≤ g.bound.low * (1 - stop))
  | none => false

/-- `Grid::predictive_buying` (`impl Strategy for Grid`). -/
def Grid.predictive_buying (g : Grid) (price : ℚ) : Option ℚ :=
  match g.find_buying_bound_position price with
  | none => none
  | some i =>
    match (g.positions.getD i default).position with
    | .None => some (g.investment / (g.positions.length + 1))
    | .Stock _ => none

/-- `Grid::predictive_selling` (`impl Strategy for Grid`): on stop-loss,
every held order regardless of its own selling bound; otherwise the held
order of the position whose selling bound contains the price. -/
def Grid.predictive_selling (g : Grid) (price : ℚ) : Option (List Order) :=
  if g.is_reach_stop_loss price then
    some (g.positions.filterMap fun e =>
      match e.position with
      | .Stock order => some order
      | .None => none)
  else
    match g.find_selling_bound_position price with
    | none => none
    | some i =>
      match (g.positions.getD i default).position with
      | .Stock order => some [order]
      | .None => none

/-- `Grid::update_position` (`impl Strategy for Grid`): both a completed
buy and a completed sell are committed to the position found by searching
the BUYING bounds for the order's price; `none` models the `unwrap`
panic when no buying bound contains that price. -/
def Grid.update_position (g : Grid) (side : PositionSide) : Option Grid :=
  match side with
  | .Increase v =>
    match g.find_buying_bound_position v.price with
    | none => none
    | some i =>
      some { g with
        positions := g.positions.set i
          { g.positions.getD i default with position := .Stock v } }
  | .Decrease v =>
    match g.find_buying_bound_position v.price with
    | none => none
    | some i =>
      some { g with
        positions := g.positions.set i
          { g.positions.getD i default with position := .None } }

/-! ## `strategy/percentage.rs`: the one-shot percentage strategy -/

/-- `Percentage` from `src/strategy/percentage.rs`. -/
structure Percentage where
  investment : ℚ
  target_percent : ℚ
  is_completed : Bool
  stop_percent : Option ℚ
  positions : List Order
  start_buying_price : Option ℚ
deriving DecidableEq

/-- `Percentage::new`. -/
def Percentage.new (investment target_percent : ℚ) (stop_percent : Option ℚ)
    (start_buying_price : Option ℚ) : Percentage :=
  ⟨investment, target_percent, false, stop_percent, [], start_buying_price⟩

/-- `Percentage::predictive_buying`. -/
def Percentage.predictive_buying (pg : Percentage) (price : PriceSignal) :
    Option ℚ :=
  if pg.is_completed then
    none
  else if (match pg.start_buying_price with
           | some sp => decide (price.value < sp)
           | none => false) then
    none
  else if pg.positions.isEmpty then
    some pg.investment
  else
    none

/-- The per-order sell test of `Percentage::predictive_selling`: the
price has risen above `entry * (1 + target_percent)`, or, when a stop
percent is configured, fallen below `entry * (1 + stop_percent)`. -/
def Percentage.sellTest (pg : Percentage) (price : PriceSignal) (e : Order) :
    Bool :=
  if price.value > e.price * (1 + pg.target_percent) then
    true
  else
    match pg.stop_percent with
    | some stop => decide (price.value < e.price * (1 + stop))
    | none => false

/-- `Percentage::predictive_selling`. -/
def Percentage.predictive_selling (pg : Percentage) (price : PriceSignal) :
    Option (List Order) :=
  if pg.is_completed then
    none
  else
    some (pg.positions.filter (pg.sellTest price))

/-- `Percentage::update_position`: a completed buy is appended; a
completed sell removes the first structurally equal stored order and,
only when one was found, sets the one-shot `is_completed` flag. -/
def Percentage.update_position (pg : Percentage) (side : PositionSide) :
    Percentage :=
  match side with
  | .Increase v => { pg with positions := pg.positions ++ [v] }
  | .Decrease v =>
    match pg.positions.findIdx? (fun e => e = v) with
    | some index =>
      { pg with
        positions := pg.positions.eraseIdx index
        is_completed := true }
    | none => pg

/-! ## `spot/mod.rs`: the commission/precision calculator -/

/-- `Spot` from `src/spot/mod.rs` (the symbol string is irrelevant to the
arithmetic and omitted). -/
structure Spot where
  transaction_quantity_precision : ℕ
  holding_quantity_precision : ℕ
  amount_income_precision : ℕ
  buying_commission : ℚ
  selling_commission : ℚ
  minimum_transaction_amount : ℚ
deriving DecidableEq

/-- `Spot::buying_quantity_with_commission`:
`(quantity * (1 - buying_commission)).round_dp(holding_quantity_precision)`. -/
def Spot.buying_quantity_with_commission (s : Spot) (quantity : ℚ) : ℚ :=
  roundDp s.holding_quantity_precision (quantity * (1 - s.buying_commission))

/-- `Spot::transaction_quantity_with_precision`. -/
def Spot.transaction_quantity_with_precision (s : Spot) (quantity : ℚ) : ℚ :=
  truncScale s.transaction_quantity_precision quantity

/-- `Spot::selling_amount_with_commission`:
`amount - (amount * selling_commission).round_dp(amount_income_precision)`. -/
def Spot.selling_amount_with_commission (s : Spot) (amount : ℚ) : ℚ :=
  amount - roundDp s.amount_income_precision (amount * s.selling_commission)

/-- `Spot::is_allow_transaction`. -/
def Spot.is_allow_transaction (s : Spot) (price quantity : ℚ) : Bool :=
  decide (price * quantity > s.minimum_transaction_amount)

/-- `Spot::buying_quantity_by_amount`. -/
def Spot.buying_quantity_by_amount (s : Spot) (price amount : ℚ) : ℚ :=
  s.transaction_quantity_with_precision (amount / price)


/-- A flat holding: `held` is `None` or `Some(0)`. -/
def LimitPosition.isFlat (lp : LimitPosition) : Prop :=
  lp.position = none ∨ lp.position = some 0

instance (lp : LimitPosition) : Decidable lp.isFlat :=
  inferInstanceAs (Decidable (_ ∨ _))

/-- The order a `PositionSide` carries. -/
def PositionSide.order : PositionSide → Order
  | .Increase v => v
  | .Decrease v => v

/-- The stored orders of all non-flat grid positions. -/
def Grid.heldOrders (g : Grid) : List Order :=
  g.positions.filterMap fun e =>
    match e.position with
    | .Stock order => some order
    | .None => none

/-- The `btc_spot` fixture of `src/spot/mod.rs` (symbol omitted):
transaction precision 5, holding precision 7, income precision 8,
both commissions `0.001`, minimum amount 5. -/
def btcSpot : Spot :=
  ⟨5, 7, 8, 1 / 1000, 1 / 1000, 5⟩

/-! ## General lemmas -/

theorem is_within_inclusive_iff (r : Range) (v : ℚ) :
    r.is_within_inclusive v = true ↔ r.low ≤ v ∧ v ≤ r.high := by
  simp [Range.is_within_inclusive]

theorem bound_is_within_iff (b : Bound) (v : ℚ) :
    b.is_within v = true ↔ b.fst < v ∧ v < b.snd := by
  simp [Bound.is_within]

theorem with_copies_eq (bound : Bound) (copies : ℕ) :
    BoundPosition.with_copies bound copies =
      (List.range (copies - 1)).map (fun i : ℕ =>
        ⟨⟨bound.low + truncScale 6 ((bound.high - bound.low) / copies) * (i : ℚ),
          bound.low + truncScale 6 ((bound.high - bound.low) / copies) * (i : ℚ)
            + truncScale 6 ((bound.high - bound.low) / copies) / 2⟩,
        ⟨bound.low + truncScale 6 ((bound.high - bound.low) / copies)
            * ((i : ℚ) + 2)
            - truncScale 6 ((bound.high - bound.low) / copies) / 2,
          bound.low + truncScale 6 ((bound.high - bound.low) / copies)
            * ((i : ℚ) + 2)⟩,
        .None⟩) := by
  unfold BoundPosition.with_copies
  rfl

/-! ## C8: the per-position predictive contract -/

/-- C8. `LimitPosition::predictive_buying(price)` returns the configured
investment amount iff the price is inclusively within the buying range and
the holding is `None` or `Some(0)`, otherwise `None`;
`LimitPosition::predictive_selling(price)` returns the held quantity iff
the price is inclusively within the selling range and a non-zero holding
exists, otherwise `None`; and a holding of `Some(0)` behaves identically
to `None` in both. -/
theorem c8_limit_position_predictive_contract (lp : LimitPosition)
    (price : ℚ) :
    (lp.predictive_buying price =
      if lp.buying.is_within_inclusive price = true ∧ lp.isFlat then
        some lp.investment
      else none)
    ∧ (∀ q, lp.predictive_selling price = some q ↔
        lp.selling.is_within_inclusive price = true ∧
          lp.position = some q ∧ q ≠ 0)
    ∧ ((lp.update_position (some 0)).predictive_buying price =
        (lp.update_position none).predictive_buying price)
    ∧ ((lp.update_position (some 0)).predictive_selling price =
        (lp.update_position none).predictive_selling price) := by
  unfold LimitPosition.predictive_buying LimitPosition.predictive_selling
    LimitPosition.isFlat LimitPosition.update_position
  obtain ⟨b, s, inv, pos, bc, sc⟩ := lp
  refine ⟨?_, ?_, ?_, ?_⟩
  · rcases pos with _ | pos <;> split_ifs <;> simp_all
  · intro q
    rcases pos with _ | pos <;> split_ifs <;> simp_all
    constructor
    · rintro ⟨h1, rfl⟩
      exact ⟨rfl, h1⟩
    · rintro ⟨rfl, h1⟩
      exact ⟨h1, rfl⟩
  · simp
  · simp

/-- Closed witness for C8 at a concrete position and price. -/
theorem c8_witness :
    ((LimitPosition.new 50 ⟨0, 100⟩ ⟨150, 300⟩ none).predictive_buying 60 =
        some 50)
    ∧ ((LimitPosition.new 50 ⟨0, 100⟩ ⟨150, 300⟩
          (some 2)).predictive_selling 160 = some 2) := by
  constructor
  · have h := (c8_limit_position_predictive_contract
      (LimitPosition.new 50 ⟨0, 100⟩ ⟨150, 300⟩ none) 60).1
    rw [h]
    norm_num [LimitPosition.new, LimitPosition.isFlat,
      Range.is_within_inclusive, Range.low, Range.high]
  · have h := ((c8_limit_position_predictive_contract
      (LimitPosition.new 50 ⟨0, 100⟩ ⟨150, 300⟩ (some 2)) 160).2.1 2).2
    apply h
    norm_num [LimitPosition.new, Range.is_within_inclusive, Range.low,
      Range.high]

/-! ## C4: percentage sell suggestions -/

/-- C4. While not completed, `Percentage::predictive_selling` suggests
exactly those stored orders whose current price has risen above
`entry * (1 + target_percent)` or, when a stop percent is configured,
fallen below `entry * (1 + stop_percent)` (the stop percent is a signed
change relative to the entry price). -/
theorem c4_percentage_selling_exactly (pg : Percentage) (price : PriceSignal)
    (h : pg.is_completed = false) :
    pg.predictive_selling price =
      some (pg.positions.filter (pg.sellTest price))
    ∧ ∀ e, e ∈ pg.positions.filter (pg.sellTest price) ↔
        e ∈ pg.positions ∧
          (price.value > e.price * (1 + pg.target_percent) ∨
            ∃ stop, pg.stop_percent = some stop ∧
              price.value < e.price * (1 + stop)) := by
  constructor
  · simp [Percentage.predictive_selling, h]
  · intro e
    rw [List.mem_filter]
    refine and_congr_right fun _ => ?_
    unfold Percentage.sellTest
    rcases hs : pg.stop_percent with _ | stop <;> split_ifs with ht <;>
      simp_all

/-- Closed witness for C4: with target one percent and stop minus five
percent, a price of `101.5` sells the order entered at `100` (risen) but
not the order entered at `101`. -/
theorem c4_witness :
    (Percentage.mk 100 (1 / 100) false (some (-5 / 100))
        [⟨100, 100, 1, 0⟩, ⟨101, 100, 1, 0⟩] none).predictive_selling
        ⟨1015 / 10, 0⟩ = some [⟨100, 100, 1, 0⟩] := by
  have h := c4_percentage_selling_exactly
    (Percentage.mk 100 (1 / 100) false (some (-5 / 100))
      [⟨100, 100, 1, 0⟩, ⟨101, 100, 1, 0⟩] none) ⟨1015 / 10, 0⟩ rfl
  rw [h.1]
  norm_num [Percentage.sellTest, List.filter]

/-! ## C5: the completed flag is one-shot and terminal -/

/-- C5. `Percentage`'s completed flag becomes true exactly when a
`Decrease` order structurally matches a stored position (which is then
removed); an `Increase` never changes it; it is never reset by any
sequence of updates; and once it is true, `predictive_buying` and
`predictive_selling` never again suggest any trade. -/
theorem c5_percentage_completed_one_shot (pg : Percentage) :
    (∀ v, (pg.update_position (.Decrease v)).is_completed = true ↔
        (pg.is_completed = true ∨ v ∈ pg.positions))
    ∧ (∀ v, v ∈ pg.positions →
        (pg.update_position (.Decrease v)).positions.length + 1 =
          pg.positions.length)
    ∧ (∀ v, (pg.update_position (.Increase v)).is_completed =
        pg.is_completed)
    ∧ (∀ sides : List PositionSide, pg.is_completed = true →
        (sides.foldl Percentage.update_position pg).is_completed = true)
    ∧ (pg.is_completed = true → ∀ price,
        pg.predictive_buying price = none ∧
          pg.predictive_selling price = none) := by
  have hfind : ∀ (l : List Order) (v : Order),
      l.findIdx? (fun e => e = v) = none ↔ ¬ v ∈ l := by
    intro l v
    rw [List.findIdx?_eq_none_iff]
    constructor
    · intro h hm
      have := h v hm
      simp at this
    · intro h x hx
      simp only [decide_eq_false_iff_not]
      intro hxv
      exact h (hxv ▸ hx)
  refine ⟨?_, ?_, ?_, ?_, ?_⟩
  · intro v
    unfold Percentage.update_position
    rcases hf : pg.positions.findIdx? (fun e => e = v) with _ | i
    · have hnm : ¬ v ∈ pg.positions := (hfind pg.positions v).mp hf
      simp only [hf]
      simp [hnm]
    · have hm : v ∈ pg.positions := by
        by_contra hc
        rw [← hfind pg.positions v, hf] at hc
        cases hc
      simp only [hf]
      simp [hm]
  · intro v hv
    unfold Percentage.update_position
    rcases hf : pg.positions.findIdx? (fun e => e = v) with _ | i
    · exact absurd hv ((hfind pg.positions v).mp hf)
    · have hi : i < pg.positions.length := by
        have := List.findIdx?_eq_some_iff_findIdx_eq.mp hf
        exact this.1
      simp only [hf]
      simp [List.length_eraseIdx, hi]
      omega
  · intro v
    unfold Percentage.update_position
    rfl
  · intro sides
    induction sides generalizing pg with
    | nil => exact fun h => h
    | cons side rest ih =>
      intro h
      rw [List.foldl_cons]
      apply ih
      unfold Percentage.update_position
      rcases side with v | v
      · exact h
      · rcases hf : pg.positions.findIdx? (fun e => e = v) with _ | i <;>
          simp only [hf] <;> simp [h]
  · intro h price
    unfold Percentage.predictive_buying Percentage.predictive_selling
    simp [h]

/-- Closed witness for C5: selling the stored order completes the
strategy, and the completed strategy suggests nothing. -/
theorem c5_witness :
    ((Percentage.mk 100 (1 / 100) false none [⟨100, 100, 1, 0⟩]
        none).update_position (.Decrease ⟨100, 100, 1, 0⟩)).is_completed =
      true
    ∧ (Percentage.mk 100 (1 / 100) true none [] none).predictive_buying
        ⟨100, 0⟩ = none := by
  constructor
  · exact ((c5_percentage_completed_one_shot
      (Percentage.mk 100 (1 / 100) false none [⟨100, 100, 1, 0⟩] none)).1

        ⟨100, 100, 1, 0⟩).mpr (Or.inr (by simp))
  · exact ((c5_percentage_completed_one_shot
      (Percentage.mk 100 (1 / 100) true none [] none)).2.2.2.2 rfl
        ⟨100, 0⟩).1

/-! ## Rounding lemmas -/

theorem roundTE_zero : roundTE 0 = 0 := by
  unfold roundTE
  norm_num

theorem roundTE_nonneg (y : ℚ) (hy : 0 ≤ y) : 0 ≤ roundTE y := by
  unfold roundTE
  have h0 : (0 : ℤ) ≤ ⌊y⌋ := Int.floor_nonneg.mpr hy
  split_ifs <;> omega

theorem roundTE_le (y : ℚ) : (roundTE y : ℚ) ≤ y + 1 / 2 := by
  unfold roundTE
  have h1 : (⌊y⌋ : ℚ) ≤ y := Int.floor_le y
  split_ifs with h2 h3 h4
  · linarith
  · push_cast
    linarith
  · push_cast
    linarith
  · push_cast
    linarith

theorem roundDp_zero (p : ℕ) : roundDp p 0 = 0 := by
  unfold roundDp
  rw [show (0 : ℚ) * 10 ^ p = 0 by ring, roundTE_zero]
  norm_num

theorem roundDp_nonneg (p : ℕ) (x : ℚ) (hx : 0 ≤ x) : 0 ≤ roundDp p x := by
  unfold roundDp
  have h1 : (0 : ℚ) ≤ roundTE (x * 10 ^ p) := by
    exact_mod_cast roundTE_nonneg _ (by positivity)
  positivity

theorem roundDp_le (p : ℕ) (x : ℚ) :
    roundDp p x ≤ x + 1 / (2 * 10 ^ p) := by
  unfold roundDp
  have h1 : (roundTE (x * 10 ^ p) : ℚ) ≤ x * 10 ^ p + 1 / 2 :=
    roundTE_le _
  have h2 : (0 : ℚ) < 10 ^ p := by positivity
  rw [div_le_iff h2]
  calc (roundTE (x * 10 ^ p) : ℚ) ≤ x * 10 ^ p + 1 / 2 := h1
    _ = (x + 1 / (2 * 10 ^ p)) * 10 ^ p := by field_simp; ring

/-! ## C9: commission bounds (corrected) -/


/-- C9 counterexample: the claim `buying_quantity_with_commission(x) <= x`
fails at the non-negative quantity `x = 0.00000019` on the repository's
own BTC configuration: `x * (1 - 0.001) = 0.00000018981` rounds to
`0.0000002 > x` at holding precision 7 (round-to-nearest). -/
theorem c9_counterexample :
    (0 : ℚ) ≤ 19 / 10 ^ 8 ∧
      btcSpot.buying_quantity_with_commission (19 / 10 ^ 8) >
        (19 / 10 ^ 8 : ℚ) := by
  constructor
  · norm_num
  · have harg : (19 / 10 ^ 8 : ℚ) * (1 - 1 / 1000) * 10 ^ 7 =
        18981 / 10 ^ 4 := by
      norm_num
    have hfl : ⌊(18981 / 10 ^ 4 : ℚ)⌋ = 1 := by
      rw [Int.floor_eq_iff]
      norm_num
    unfold Spot.buying_quantity_with_commission btcSpot roundDp roundTE
    simp only
    rw [harg, hfl]
    norm_num

/-- C9 amended. For non-negative `x`: with a non-negative selling
commission, `selling_amount_with_commission(x) <= x`, with equality
whenever the selling commission is zero (equality can also occur for a
positive commission when the rounded fee is zero, e.g. at `x = 0`);
`buying_quantity_with_commission(x)` is only bounded by
`x * (1 - buying_commission)` plus half an ulp of the holding precision,
and can exceed `x` itself, because `round_dp` rounds to nearest. -/
theorem c9_commission_bounds (s : Spot) (x : ℚ) (hx : 0 ≤ x) :
    (0 ≤ s.selling_commission → s.selling_amount_with_commission x ≤ x)
    ∧ (s.selling_commission = 0 → s.selling_amount_with_commission x = x)
    ∧ s.buying_quantity_with_commission x ≤
        x * (1 - s.buying_commission) +
          1 / (2 * 10 ^ s.holding_quantity_precision) := by
  refine ⟨?_, ?_, ?_⟩
  · intro hc
    unfold Spot.selling_amount_with_commission
    have h1 : 0 ≤ roundDp s.amount_income_precision
        (x * s.selling_commission) :=
      roundDp_nonneg _ _ (by positivity)
    linarith
  · intro hc
    unfold Spot.selling_amount_with_commission
    rw [hc, mul_zero, roundDp_zero, sub_zero]
  · unfold Spot.buying_quantity_with_commission
    exact roundDp_le _ _

/-- Closed witness for C9 (amended) on the BTC configuration at
`x = 100`. -/
theorem c9_witness :
    (0 : ℚ) ≤ 100 ∧
      btcSpot.selling_amount_with_commission 100 ≤ 100 := by
  refine ⟨by norm_num, ?_⟩
  exact (c9_commission_bounds btcSpot 100 (by norm_num)).1 (by norm_num [btcSpot])

/-! ## Grid lemmas -/


theorem truncScale_of_intMul (p : ℕ) (x : ℚ) (n : ℤ) (hn : 0 ≤ n)
    (h : x * 10 ^ p = n) : truncScale p x = x := by
  unfold truncScale ratTrunc
  rw [h]
  rw [if_neg (by exact_mod_cast not_lt.mpr (by exact_mod_cast hn))]
  rw [Int.floor_intCast]
  field_simp at h ⊢
  linarith [h]


/-! ## C10: `Grid::update_position` panics off the buying bands -/

/-- C10. `Grid::update_position` locates the position to commit by
searching the BUYING bounds for the order's price for both `Increase` and
`Decrease`, and panics (modelled as `none`) exactly when the order's
price is not strictly inside any position's buying bound — in particular
a sell executed at a price inside a selling bound but outside every
buying bound panics instead of clearing the holding. -/
theorem c10_grid_update_position_panics (g : Grid) (side : PositionSide) :
    (g.update_position side = none ↔
      ∀ bp ∈ g.positions, bp.buying.is_within side.order.price = false)
    ∧ (g.update_position side = none ↔
        g.find_buying_bound_position side.order.price = none) := by
  have hfind : g.find_buying_bound_position side.order.price = none ↔
      ∀ bp ∈ g.positions, bp.buying.is_within side.order.price = false := by
    unfold Grid.find_buying_bound_position
    rw [List.findIdx?_eq_none_iff]
  have hupd : g.update_position side = none ↔
      g.find_buying_bound_position side.order.price = none := by
    rcases side with v | v <;>
      · unfold Grid.update_position PositionSide.order
        rcases h : g.find_buying_bound_position v.price with _ | i <;>
          simp [h]
  exact ⟨hupd.trans hfind, hupd⟩

/-- Closed witness for C10: on the 4-copy grid over `(50, 90)` (buying
bounds `(50,55)`, `(60,65)`, `(70,75)`), committing a sell executed at
price 88 — inside the selling bound `(85,90)` but outside every buying
bound — panics. -/
theorem c10_witness :
    (Grid.new 100 (50, 90) 4 none).update_position
      (.Decrease ⟨88, 50, 1, 0⟩) = none := by
  have h10 : truncScale 6 (10 : ℚ) = 10 :=
    truncScale_of_intMul 6 10 10000000 (by norm_num) (by norm_num)
  apply (c10_grid_update_position_panics (Grid.new 100 (50, 90) 4 none)
    (.Decrease ⟨88, 50, 1, 0⟩)).1.mpr
  intro bp hbp
  have hbp2 : bp ∈ BoundPosition.with_copies ⟨(50 : ℚ), 90⟩ 4 := hbp
  rw [with_copies_eq] at hbp2
  rw [show Bound.high ⟨(50 : ℚ), 90⟩ = 90 from by norm_num [Bound.high],
    show Bound.low ⟨(50 : ℚ), 90⟩ = 50 from by norm_num [Bound.low],
    show ((90 : ℚ) - 50) / ((4 : ℕ) : ℚ) = 10 from by norm_num, h10]
    at hbp2
  rw [show List.range (4 - 1) = [0, 1, 2] from by decide] at hbp2
  simp only [List.map_cons, List.map_nil, List.mem_cons,
    List.not_mem_nil, or_false] at hbp2
  rcases hbp2 with rfl | rfl | rfl <;>
    norm_num [Bound.is_within, PositionSide.order]

/-! ## C6: the stop-loss override -/

/-- C6. `Grid::is_reach_stop_loss(price)` is true iff a stop-loss
fraction is configured and the price is at or below the grid's low bound
scaled by `1 - stop` (the configured threshold); whenever it is true,
`Grid::predictive_selling` returns the stored order of every position
with a non-flat holding, regardless of each position's own selling
bound. -/
theorem c6_grid_stop_loss_liquidates_all (g : Grid) (price : ℚ) :
    (g.is_reach_stop_loss price = true ↔
      ∃ stop, g.options.stop_loss = some stop ∧
        price ≤ g.bound.low * (1 - stop))
    ∧ (g.is_reach_stop_loss price = true →
        g.predictive_selling price = some g.heldOrders)
    ∧ (∀ o, o ∈ g.heldOrders ↔
        ∃ bp ∈ g.positions, bp.position = .Stock o) := by
  refine ⟨?_, ?_, ?_⟩
  · unfold Grid.is_reach_stop_loss
    rcases h : g.options.stop_loss with _ | stop <;> simp [h]
  · intro h
    unfold Grid.predictive_selling
    rw [h]
    simp [Grid.heldOrders]
  · intro o
    unfold Grid.heldOrders
    rw [List.mem_filterMap]
    refine exists_congr fun bp => and_congr_right fun _ => ?_
    rcases hp : bp.position with order | _ <;> simp [hp]

/-- Closed witness for C6, realizing the spec's example: a grid whose
lowest band starts at 100 with stop-loss fraction `0.1` (threshold 90); a
price tick of 85, inside `(80, 90)` and outside both selling bounds,
liquidates every held position. -/
theorem c6_witness :
    (Grid.mk ⟨100, 180⟩ 100
        [⟨⟨100, 110⟩, ⟨140, 160⟩, .Stock ⟨105, 50, 1, 0⟩⟩,
          ⟨⟨120, 130⟩, ⟨160, 180⟩, .None⟩]
        ⟨some (1 / 10)⟩).is_reach_stop_loss 85 = true
    ∧ (Grid.mk ⟨100, 180⟩ 100
        [⟨⟨100, 110⟩, ⟨140, 160⟩, .Stock ⟨105, 50, 1, 0⟩⟩,
          ⟨⟨120, 130⟩, ⟨160, 180⟩, .None⟩]
        ⟨some (1 / 10)⟩).predictive_selling 85 =
      some [⟨105, 50, 1, 0⟩] := by
  have hstop : (Grid.mk ⟨100, 180⟩ 100
      [⟨⟨100, 110⟩, ⟨140, 160⟩, .Stock ⟨105, 50, 1, 0⟩⟩,
        ⟨⟨120, 130⟩, ⟨160, 180⟩, .None⟩]
      ⟨some (1 / 10)⟩).is_reach_stop_loss 85 = true := by
    apply (c6_grid_stop_loss_liquidates_all _ 85).1.mpr
    exact ⟨1 / 10, rfl, by norm_num [Bound.low]⟩
  refine ⟨hstop, ?_⟩
  rw [(c6_grid_stop_loss_liquidates_all _ 85).2.1 hstop]
  simp [Grid.heldOrders]

/-! ## C3: the grid split layout (corrected) -/

/-- C3 counterexample: on `Grid::new(90, (50, 90), 4)` (three positions)
the amount suggested for a buy at price 52 is
`investment / (positions.len() + 1) = 90 / 4 = 22.5`, not the claimed
`investment / (copies - 1) = 90 / 3 = 30` truncated to six decimals. -/
theorem c3_counterexample :
    (Grid.new 90 (50, 90) 4 none).predictive_buying 52 = some (45 / 2)
    ∧ (45 / 2 : ℚ) ≠ truncScale 6 (90 / 3) := by
  have h10 : truncScale 6 (10 : ℚ) = 10 :=
    truncScale_of_intMul 6 10 10000000 (by norm_num) (by norm_num)
  have h30 : truncScale 6 ((90 : ℚ) / 3) = 30 := by
    rw [show ((90 : ℚ) / 3) = 30 by norm_num]
    exact truncScale_of_intMul 6 30 30000000 (by norm_num) (by norm_num)
  constructor
  · unfold Grid.predictive_buying Grid.find_buying_bound_position Grid.new
      BoundPosition.with_copies
    norm_num [Bound.low, Bound.high]
    rw [h10]
    rw [show List.range 3 = [0, 1, 2] from rfl]
    simp only [List.map_cons, List.map_nil, List.findIdx?_cons]
    norm_num [Bound.is_within]
  · rw [h30]
    norm_num

/-- C3 amended. `BoundPosition::with_copies(bound, copies)` produces
`copies - 1` positions; with `interval = (high - low) / copies`
truncated to six decimal places, position `i` has buying bound
`(low + i*interval, low + i*interval + interval/2)` and selling bound
`(low + (i+2)*interval - interval/2, low + (i+2)*interval)` — the
claimed half-interval interleaved layout.  The amount
`Grid::predictive_buying` suggests, however, is
`investment / (positions.len() + 1) = investment / copies`, with no
six-decimal truncation, not `investment / (copies - 1)`. -/
theorem c3_grid_split_layout (bound : Bound) (copies : ℕ)
    (hc : 1 ≤ copies) (investment lo hi : ℚ) :
    ((BoundPosition.with_copies bound copies).length = copies - 1
      ∧ ∀ i : ℕ, ∀ hi : i < copies - 1,
          (BoundPosition.with_copies bound copies).getD i default =
            ⟨⟨bound.low + truncScale 6 ((bound.high - bound.low) / copies)
                * (i : ℚ),
              bound.low + truncScale 6 ((bound.high - bound.low) / copies)
                * (i : ℚ)
                + truncScale 6 ((bound.high - bound.low) / copies) / 2⟩,
            ⟨bound.low + truncScale 6 ((bound.high - bound.low) / copies)
                * ((i : ℚ) + 2)
                - truncScale 6 ((bound.high - bound.low) / copies) / 2,
              bound.low + truncScale 6 ((bound.high - bound.low) / copies)
                * ((i : ℚ) + 2)⟩,
            .None⟩)
    ∧ ∀ a price, (Grid.new investment (lo, hi) copies none).predictive_buying
          price = some a →
        a = investment / copies := by
  constructor
  · constructor
    · rw [with_copies_eq, List.length_map, List.length_range]
    · intro i hilt
      rw [with_copies_eq]
      rw [List.getD_eq_getElem?_getD]
      rw [List.getElem?_map]
      rw [List.getElem?_range hilt]
      simp
  · intro a price h
    unfold Grid.predictive_buying at h
    split at h
    · cases h
    · split at h
      · have hlen : (Grid.new investment (lo, hi) copies none).positions.length
            = copies - 1 := by
          show (BoundPosition.with_copies _ _).length = copies - 1
          rw [with_copies_eq, List.length_map, List.length_range]
        simp only [Option.some_inj] at h
        rw [← h, hlen]
        have hGi : (Grid.new investment (lo, hi) copies none).investment =
            investment := rfl
        rw [hGi]
        congr 1
        have hcc : copies - 1 + 1 = copies := Nat.succ_pred_eq_of_pos hc
        rw [← hcc]
        push_cast
        ring
      · cases h

/-- Closed witness for C3 (amended): the spec's own example layout — four
copies over `(50, 90)` give buying bounds `(50,55)`, `(60,65)`, `(70,75)`
and selling bounds `(65,70)`, `(75,80)`, `(85,90)` — and the suggested
buy amount for `Grid::new(90, (50,90), 4)` is `90 / 4`. -/
theorem c3_witness :
    BoundPosition.with_copies ⟨50, 90⟩ 4 =
      [⟨⟨50, 55⟩, ⟨65, 70⟩, .None⟩,
        ⟨⟨60, 65⟩, ⟨75, 80⟩, .None⟩,
        ⟨⟨70, 75⟩, ⟨85, 90⟩, .None⟩]
    ∧ ((45 : ℚ) / 2) = 90 / 4 ∧
      (BoundPosition.with_copies ⟨50, 90⟩ 4).length = 4 - 1 := by
  have hlen : (BoundPosition.with_copies ⟨50, 90⟩ 4).length = 4 - 1 :=
    (c3_grid_split_layout ⟨50, 90⟩ 4 (by norm_num) 90 50 90).1.1
  have ht : truncScale 6
      ((Bound.high ⟨(50 : ℚ), 90⟩ - Bound.low ⟨(50 : ℚ), 90⟩) /
        ((4 : ℕ) : ℚ)) = 10 := by
    rw [show (Bound.high ⟨(50 : ℚ), 90⟩ - Bound.low ⟨(50 : ℚ), 90⟩) /
        ((4 : ℕ) : ℚ) = 10 by norm_num [Bound.low, Bound.high]]
    exact truncScale_of_intMul 6 10 10000000 (by norm_num) (by norm_num)
  refine ⟨?_, by norm_num, hlen⟩
  rw [with_copies_eq, ht]
  rw [show List.range (4 - 1) = [0, 1, 2] by decide]
  simp only [List.map_cons, List.map_nil, List.cons.injEq, List.nil_eq]
  norm_num [Bound.low, Bound.high]

/-! ## Lemmas about the `trap` loop -/

theorem step_event_eq (buyF sellF : ℚ → ℚ → Except Unit ℚ) (price : ℚ)
    (lp : LimitPosition) :
    (stepPosition buyF sellF price lp).event = tickDecision price lp := by
  unfold stepPosition tickDecision
  rcases hs : lp.predictive_selling price with _ | q
  · rcases hb : lp.predictive_buying price with _ | a
    · simp
    · rcases hbf : buyF price a with e | v <;> simp [hbf]
  · rcases hsf : sellF price q with e | v <;> simp [hsf]

theorem step_err_spec (buyF sellF : ℚ → ℚ → Except Unit ℚ) (price : ℚ)
    (lp : LimitPosition)
    (h : (stepPosition buyF sellF price lp).err = true) :
    (stepPosition buyF sellF price lp).pos = lp ∧
      ∃ ev, tickDecision price lp = some ev := by
  rw [← step_event_eq buyF sellF price lp]
  unfold stepPosition at h ⊢
  rcases hs : lp.predictive_selling price with _ | q
  · rcases hb : lp.predictive_buying price with _ | a
    · simp [hs, hb] at h
    · rcases hbf : buyF price a with e | v
      · simp [hs, hb, hbf]
      · simp [hs, hb, hbf] at h
  · rcases hsf : sellF price q with e | v
    · simp [hs, hsf]
    · simp [hs, hsf] at h

theorem trapGo_ok_spec (buyF sellF : ℚ → ℚ → Except Unit ℚ) (price : ℚ)
    (l : List LimitPosition)
    (h : (trapGo buyF sellF price l).err = false) :
    trapGo buyF sellF price l =
      ⟨l.map (fun lp => (stepPosition buyF sellF price lp).pos),
        l.filterMap (tickDecision price), false⟩ := by
  induction l with
  | nil => rfl
  | cons lp rest ih =>
    by_cases hs : (stepPosition buyF sellF price lp).err = true
    · exfalso
      simp only [trapGo, hs, if_true] at h
      cases h
    · simp only [Bool.not_eq_true] at hs
      simp only [trapGo, hs, Bool.false_eq_true, if_false] at h ⊢
      rw [ih h]
      simp [List.filterMap_cons, ← step_event_eq buyF sellF price lp]
      rcases he : (stepPosition buyF sellF price lp).event with _ | ev <;>
        simp

theorem trapGo_err_spec (buyF sellF : ℚ → ℚ → Except Unit ℚ) (price : ℚ)
    (l : List LimitPosition)
    (h : (trapGo buyF sellF price l).err = true) :
    ∃ l₁ lp l₂ ev, l = l₁ ++ lp :: l₂ ∧
      (∀ x ∈ l₁, (stepPosition buyF sellF price x).err = false) ∧
      (stepPosition buyF sellF price lp).err = true ∧
      tickDecision price lp = some ev ∧
      trapGo buyF sellF price l =
        ⟨l₁.map (fun x => (stepPosition buyF sellF price x).pos) ++ lp :: l₂,
          l₁.filterMap (tickDecision price) ++ [ev], true⟩ := by
  induction l with
  | nil => cases h
  | cons lp rest ih =>
    by_cases hs : (stepPosition buyF sellF price lp).err = true
    · obtain ⟨hpos, ev, hev⟩ := step_err_spec buyF sellF price lp hs
      refine ⟨[], lp, rest, ev, rfl, by simp, hs, hev, ?_⟩
      simp only [trapGo, hs, if_true]
      rw [hpos, ← step_event_eq buyF sellF price lp] at *
      simp only [List.map_nil, List.nil_append, List.filterMap_nil]
      rw [show (stepPosition buyF sellF price lp).event = some ev from hev]
      rfl
    · simp only [Bool.not_eq_true] at hs
      simp only [trapGo, hs, Bool.false_eq_true, if_false] at h
      obtain ⟨l₁, lpf, l₂, ev, hsplit, hpre, herr, hev, heq⟩ := ih h
      refine ⟨lp :: l₁, lpf, l₂, ev, by simp [hsplit], ?_, herr, hev, ?_⟩
      · intro x hx
        rcases List.mem_cons.mp hx with rfl | hx2
        · exact hs
        · exact hpre x hx2
      · simp only [trapGo, hs, Bool.false_eq_true, if_false]
        rw [heq]
        simp only [List.map_cons, List.cons_append, List.filterMap_cons,
          ← step_event_eq buyF sellF price lp]
        rcases he : (stepPosition buyF sellF price lp).event with _ | e <;>
          simp

theorem trapGo_events_mem (buyF sellF : ℚ → ℚ → Except Unit ℚ) (price : ℚ)
    (l : List LimitPosition) (ev : TrapEvent)
    (h : ev ∈ (trapGo buyF sellF price l).events) :
    ∃ lp ∈ l, tickDecision price lp = some ev := by
  induction l with
  | nil => cases h
  | cons lp rest ih =>
    by_cases hs : (stepPosition buyF sellF price lp).err = true
    · simp only [trapGo, hs, if_true] at h
      rcases hevt : (stepPosition buyF sellF price lp).event with _ | e <;>
        rw [hevt] at h
      · cases h
      · simp only [Option.toList_some, List.mem_singleton] at h
        subst h
        exact ⟨lp, List.mem_cons_self lp rest,
          by rw [← step_event_eq buyF sellF price lp, hevt]⟩
    · simp only [Bool.not_eq_true] at hs
      simp only [trapGo, hs, Bool.false_eq_true, if_false] at h
      rcases List.mem_append.mp h with h1 | h2
      · rcases hevt : (stepPosition buyF sellF price lp).event with _ | e <;>
          rw [hevt] at h1
        · cases h1
        · simp only [Option.toList_some, List.mem_singleton] at h1
          subst h1
          exact ⟨lp, List.mem_cons_self lp rest,
            by rw [← step_event_eq buyF sellF price lp, hevt]⟩
      · obtain ⟨x, hx, hdec⟩ := ih h2
        exact ⟨x, List.mem_cons_of_mem lp hx, hdec⟩

theorem tickDecision_buy_flat (price pr a : ℚ) (lp : LimitPosition)
    (h : tickDecision price lp = some (.buyCall pr a)) :
    lp.position = none ∨ lp.position = some 0 := by
  unfold tickDecision at h
  rcases hs : lp.predictive_selling price with _ | q
  · rw [hs] at h
    rcases hb : lp.predictive_buying price with _ | amt
    · rw [hb] at h
      cases h
    · unfold LimitPosition.predictive_buying at hb
      by_cases hw : lp.buying.is_within_inclusive price = true
      · rw [if_pos hw] at hb
        rcases hp : lp.position with _ | pos
        · exact Or.inl rfl
        · simp only [hp] at hb
          by_cases hz : pos = 0
          · right
            rw [hz]
          · rw [if_neg hz] at hb
            cases hb
      · rw [if_neg hw] at hb
        cases hb
  · rw [hs] at h
    simp at h

theorem tickDecision_sell_priority (price : ℚ) (lp : LimitPosition) (q : ℚ)
    (h : lp.predictive_selling price = some q) :
    tickDecision price lp = some (.sellCall price q) := by
  unfold tickDecision
  rw [h]

theorem tickDecision_price_eq (price : ℚ) (lp : LimitPosition)
    (ev : TrapEvent) (h : tickDecision price lp = some ev) :
    ev.price = price := by
  unfold tickDecision at h
  rcases hs : lp.predictive_selling price with _ | q
  · rw [hs] at h
    rcases hb : lp.predictive_buying price with _ | amt
    · rw [hb] at h
      cases h
    · rw [hb] at h
      simp only [Option.some_inj] at h
      rw [← h]
      rfl
  · rw [hs] at h
    simp only [Option.some_inj] at h
    rw [← h]
    rfl

/-! ## C1: a buy is only ever invoked on a flat position -/

/-- C1. Over any sequence of `Limit::trap` ticks from any starting state,
every position's holding is always `None` or a single `Some` quantity,
and in every tick the injected buy operation is only invoked for (and so
can only succeed on) a position whose holding at that tick is `None` or
`Some(0)` — never on a non-zero holding. -/
theorem c1_buy_never_on_nonzero_holding (ticks : List TickInput)
    (init : List LimitPosition) :
    (∀ lp ∈ runTicks init ticks,
      lp.position = none ∨ ∃ q, lp.position = some q)
    ∧ (∀ k, ∀ hk : k < ticks.length, ∀ p,
        (ticks.get ⟨k, hk⟩).priceRes = .ok p →
        ∀ ev ∈ (trapWithPrice (ticks.get ⟨k, hk⟩).priceRes
            (ticks.get ⟨k, hk⟩).buyF (ticks.get ⟨k, hk⟩).sellF
            (runTicks init (ticks.take k))).events,
          ∀ a, ev = .buyCall p a →
            ∃ lp ∈ runTicks init (ticks.take k),
              tickDecision p lp = some ev ∧
                (lp.position = none ∨ lp.position = some 0)) := by
  constructor
  · intro lp _
    rcases h : lp.position with _ | q
    · exact Or.inl rfl
    · exact Or.inr ⟨q, rfl⟩
  · intro k hk p hp ev hev a hevb
    rw [hp] at hev
    simp only [trapWithPrice] at hev
    obtain ⟨lp, hlp, hdec⟩ := trapGo_events_mem _ _ p _ ev hev
    refine ⟨lp, hlp, hdec, ?_⟩
    rw [hevb] at hdec
    exact tickDecision_buy_flat p p a lp hdec

/-- Closed witness for C1 at one concrete tick: a single flat position
whose buy fires at price 50. -/
theorem c1_witness :
    ∃ lp ∈ [LimitPosition.new 50 ⟨0, 100⟩ ⟨150, 300⟩ none],
      tickDecision 50 lp = some (.buyCall 50 50) ∧
        (lp.position = none ∨ lp.position = some 0) := by
  have h := (c1_buy_never_on_nonzero_holding
    [⟨.ok 50, fun _ _ => .ok 1, fun _ _ => .ok 1⟩]
    [LimitPosition.new 50 ⟨0, 100⟩ ⟨150, 300⟩ none]).2 0 (by norm_num) 50 rfl
    (.buyCall 50 50) ?_ 50 rfl
  · exact h
  · norm_num [trapWithPrice, trapGo, stepPosition, runTicks,
      LimitPosition.predictive_selling, LimitPosition.predictive_buying,
      LimitPosition.new, Range.is_within_inclusive, Range.low, Range.high]

/-! ## C2: one price fetch, sell before buy, declaration order -/

/-- C2. Each `Limit::trap` call fetches the current price exactly once
(the fetch counter advances by one) and, when the fetch succeeds with
price `p`, every exchange invocation of the tick carries that single
price; on an error-free tick the invocation trace is exactly the
declaration-order `filterMap` of the per-position decision, which
evaluates the sell condition before the buy condition, so each position
makes at most one invocation and a position that sells is never also
bought within the same tick. -/
theorem c2_trap_single_price_ordered (ps : PriceSource)
    (buyF sellF : ℚ → ℚ → Except Unit ℚ) (l : List LimitPosition) :
    (trap ps buyF sellF l).1.fetches = ps.fetches + 1
    ∧ (∀ p, ps.seq ps.fetches = .ok p →
        (trap ps buyF sellF l).2 = trapGo buyF sellF p l
        ∧ (∀ ev ∈ (trapGo buyF sellF p l).events, ev.price = p)
        ∧ ((trapGo buyF sellF p l).err = false →
            (trapGo buyF sellF p l).events = l.filterMap (tickDecision p))
        ∧ (∀ lp q, lp.predictive_selling p = some q →
            tickDecision p lp = some (.sellCall p q))) := by
  refine ⟨rfl, fun p hp => ⟨?_, ?_, ?_, ?_⟩⟩
  · unfold trap trapWithPrice
    rw [hp]
  · intro ev hev
    obtain ⟨lp, _, hdec⟩ := trapGo_events_mem buyF sellF p l ev hev
    exact tickDecision_price_eq p lp ev hdec
  · intro herr
    rw [trapGo_ok_spec buyF sellF p l herr]
  · exact fun lp q h => tickDecision_sell_priority p lp q h

/-- Closed witness for C2: a one-position tick advances the fetch counter
from 0 to 1 and produces the single buy invocation at the fetched
price. -/
theorem c2_witness :
    (trap ⟨fun _ => .ok 50, 0⟩ (fun _ _ => .ok 1) (fun _ _ => .ok 1)
        [LimitPosition.new 50 ⟨0, 100⟩ ⟨150, 300⟩ none]).1.fetches = 0 + 1
    ∧ (trapGo (fun _ _ => .ok 1) (fun _ _ => .ok 1) 50
        [LimitPosition.new 50 ⟨0, 100⟩ ⟨150, 300⟩ none]).events =
      [LimitPosition.new 50 ⟨0, 100⟩ ⟨150, 300⟩ none].filterMap
        (tickDecision 50) := by
  have h := c2_trap_single_price_ordered ⟨fun _ => .ok 50, 0⟩
    (fun _ _ => .ok 1) (fun _ _ => .ok 1)
    [LimitPosition.new 50 ⟨0, 100⟩ ⟨150, 300⟩ none]
  refine ⟨h.1, (h.2 50 rfl).2.2.1 ?_⟩
  norm_num [trapGo, stepPosition, LimitPosition.predictive_selling,
    LimitPosition.predictive_buying, LimitPosition.new,
    Range.is_within_inclusive, Range.low, Range.high]

/-! ## C7: failure aborts the remainder of the tick, no rollback -/

/-- C7. If the price fetch fails, `trap` returns the error with no
position evaluated and none changed.  If an injected buy or sell fails at
some position, the error is returned immediately: the positions before it
keep their updates (no rollback), the failing position keeps its prior
holding unchanged, and no later position is evaluated (the trace stops at
the failing invocation). -/
theorem c7_trap_failure_aborts (buyF sellF : ℚ → ℚ → Except Unit ℚ)
    (l : List LimitPosition) :
    (∀ e : Unit, trapWithPrice (.error e) buyF sellF l = ⟨l, [], true⟩)
    ∧ (∀ p, (trapGo buyF sellF p l).err = true →
        ∃ l₁ lp l₂ ev, l = l₁ ++ lp :: l₂ ∧
          (∀ x ∈ l₁, (stepPosition buyF sellF p x).err = false) ∧
          (stepPosition buyF sellF p lp).err = true ∧
          tickDecision p lp = some ev ∧
          trapGo buyF sellF p l =
            ⟨l₁.map (fun x => (stepPosition buyF sellF p x).pos) ++
                lp :: l₂,
              l₁.filterMap (tickDecision p) ++ [ev], true⟩) :=
  ⟨fun _ => rfl, fun p h => trapGo_err_spec buyF sellF p l h⟩

/-- Closed witness for C7: a single held position whose sell call fails
at price 50 — the tick errors, the position keeps its prior holding, and
the trace stops at the failed sell invocation. -/
theorem c7_witness :
    ∃ l₁ lp l₂ ev,
      [LimitPosition.new 50 ⟨0, 100⟩ ⟨40, 60⟩ (some 2)] = l₁ ++ lp :: l₂ ∧
      (∀ x ∈ l₁,
        (stepPosition (fun _ _ => .ok 1) (fun _ _ => .error ()) 50 x).err =
          false) ∧
      (stepPosition (fun _ _ => .ok 1) (fun _ _ => .error ()) 50 lp).err =
        true ∧
      tickDecision 50 lp = some ev ∧
      trapGo (fun _ _ => .ok 1) (fun _ _ => .error ()) 50
          [LimitPosition.new 50 ⟨0, 100⟩ ⟨40, 60⟩ (some 2)] =
        ⟨l₁.map (fun x =>
            (stepPosition (fun _ _ => .ok 1) (fun _ _ => .error ()) 50
              x).pos) ++ lp :: l₂,
          l₁.filterMap (tickDecision 50) ++ [ev], true⟩ := by
  apply (c7_trap_failure_aborts (fun _ _ => .ok 1) (fun _ _ => .error ())
    [LimitPosition.new 50 ⟨0, 100⟩ ⟨40, 60⟩ (some 2)]).2 50
  norm_num [trapGo, stepPosition, LimitPosition.predictive_selling,
    LimitPosition.new, Range.is_within_inclusive, Range.low, Range.high]

end Binance
